import Mathlib

/-!
Shallow embedding of the cashew_importer categorization pipeline.

The embedding translates, from the Python source:
  * `src/categorizers/keyword.py`  (KeywordCategorizer),
  * `src/categorizers/openai.py`   (OpenAICategorizer.categorize, the
    response handling, the defaultdict results and the INFO logging loop),
  * `src/categorizers/main.py`     (MainCategorizer.categorize),
  * `src/transaction_processor.py` (clean_descriptions).

Python dictionaries are modelled as association lists in insertion order;
`dict[k] = v` is `dictInsert` (overwrite in place, else append) and
`dict.update` is `dictUpdate`.  Python sets of strings are modelled as
lists (with `Nodup` hypotheses where set-ness matters).  The external
OpenAI service is an oracle parameter: for each batch number and batch it
either fails (`none`: any exception or JSON parse failure inside the
per-batch `try`) or yields the parsed list of response items.
-/

namespace Cashew

/-- Substring test on lists: `listContainsSub hay needle` is true iff
`needle` occurs as a contiguous infix of `hay` (Python's `needle in hay`). -/
def listContainsSub (hay needle : List Char) : Bool :=
  match hay with
  | [] => needle.isEmpty
  | _ :: rest => needle.isPrefixOf hay || listContainsSub rest needle

/-- Python's `needle in hay` on strings (substring containment). -/
def strContains (hay needle : String) : Bool :=
  listContainsSub hay.data needle.data

/-- Python's `str.lower()`, character by character (ASCII range, which is
what `Char.toLower` implements). -/
def strLower (s : String) : String :=
  ⟨s.data.map Char.toLower⟩

/-! ### Dictionaries as insertion-ordered association lists -/

/-- `d[k] = v` on a Python dict: overwrite the value at an existing key in
place, otherwise append the new binding at the end. -/
def dictInsert (m : List (String × String)) (k v : String) :
    List (String × String) :=
  if m.any (fun p => p.1 == k) then
    m.map (fun p => if p.1 == k then (k, v) else p)
  else
    m ++ [(k, v)]

/-- `d.update(other)` on Python dicts: insert every binding of `other`
in order. -/
def dictUpdate (m other : List (String × String)) : List (String × String) :=
  other.foldl (fun acc p => dictInsert acc p.1 p.2) m

/-! ### KeywordCategorizer (`src/categorizers/keyword.py`) -/

/-- State of a `KeywordCategorizer`: the valid category list and the
keyword rules (a JSON object, i.e. an insertion-ordered mapping from
category to keyword list) as loaded by `_load_keyword_rules`; a load
failure yields the empty rules list. -/
structure KeywordCategorizer where
  categories : List String
  keyword_rules : List (String × List String)

/-- One iteration of keyword.py line 127: does any keyword of this rules
entry, lowercased, occur in the lowercased description? -/
def entryMatches (desc_lower : String) (entry : String × List String) : Bool :=
  entry.2.any (fun kw => strContains desc_lower (strLower kw))

/-- The inner `for category, keywords in self.keyword_rules.items()` loop
with its `break`: the first rules entry with a matching keyword. -/
def firstMatch (rules : List (String × List String)) (desc_lower : String) :
    Option String :=
  rules.findSome? (fun e => if entryMatches desc_lower e then some e.1 else none)

/-- `KeywordCategorizer.categorize` (keyword.py lines 108-140): each
description is lowercased, matched against the rules entries in order, and
mapped to the first matching category, else to "Uncategorized". -/
def KeywordCategorizer.categorize (kc : KeywordCategorizer)
    (descriptions : List String) : List (String × String) :=
  descriptions.map
    (fun d => (d, (firstMatch kc.keyword_rules (strLower d)).getD "Uncategorized"))

/-! ### OpenAICategorizer (`src/categorizers/openai.py`) -/

/-- A parsed item of `categorized_data["categorized_transactions"]`: a JSON
object that may or may not carry the "description" and "category" keys
(openai.py line 173 checks both before recording). -/
structure RespItem where
  description : Option String
  category : Option String

/-- The batching slice loop `for i in range(0, len(description_list), 50)`
(openai.py line 138), fuelled for structural recursion; `chunked` supplies
sufficient fuel. -/
def chunkedF : Nat → List String → List (List String)
  | 0, _ => []
  | _, [] => []
  | fuel + 1, l => l.take 50 :: chunkedF fuel (l.drop 50)

/-- The successive batches `description_list[i:i+50]` of openai.py. -/
def chunked (l : List String) : List (List String) :=
  chunkedF l.length l

/-- Recording of one response item (openai.py lines 172-174): items
carrying both the "description" and the "category" key are written into
the results dict; items missing either key are skipped. -/
def recordItem (acc : List (String × String)) (it : RespItem) :
    List (String × String) :=
  match it.description, it.category with
  | some d, some c => dictInsert acc d c
  | _, _ => acc

/-- Response handling for one batch (openai.py lines 165-177): a failed
batch (`none`: request error or JSON parse failure) is skipped via
`continue`; in a parsed batch every item carrying both keys is recorded
with `results[item["description"]] = item["category"]`. -/
def processBatch (results : List (String × String))
    (resp : Option (List RespItem)) : List (String × String) :=
  match resp with
  | none => results
  | some items => items.foldl recordItem results

/-- The per-batch loop of openai.py lines 138-177 over the chunked batches,
numbering batches from 0 and consulting the service oracle per batch. -/
def processBatches (oracle : Nat → List String → Option (List RespItem)) :
    Nat → List (List String) → List (String × String) → List (String × String)
  | _, [], results => results
  | i, b :: bs, results =>
      processBatches oracle (i + 1) bs (processBatch results (oracle i b))

/-- One defaultdict read `results[desc]` (openai.py line 185): a missing
key is materialised with the default factory value "Uncategorized". -/
def infoStep (m : List (String × String)) (d : String) :
    List (String × String) :=
  if (m.lookup d).isSome then m else m ++ [(d, "Uncategorized")]

/-- The INFO logging loop of openai.py lines 180-186: reading
`results[desc]` on the defaultdict inserts the default "Uncategorized"
for every requested description that is still absent. -/
def infoFill (descriptions : List String) (results : List (String × String)) :
    List (String × String) :=
  descriptions.foldl infoStep results

/-- `OpenAICategorizer.categorize` (openai.py lines 120-192): empty input
returns the empty dict without consulting the service; otherwise the
batches are processed in order into the defaultdict, and, when INFO
logging is enabled, the logging loop materialises a default entry for
every requested description before `dict(results)` is returned. -/
def OpenAICategorizer.categorize
    (oracle : Nat → List String → Option (List RespItem))
    (infoEnabled : Bool) (descriptions : List String) :
    List (String × String) :=
  if descriptions.isEmpty then []
  else
    let results := processBatches oracle 0 (chunked descriptions) []
    if infoEnabled then infoFill descriptions results else results

/-- A well-behaved service: every description string it returns belongs to
the batch it was asked about.  The real external service gives no such
guarantee; the code's behavior under its violation is what C1 and C2 probe. -/
def oracleConfined (oracle : Nat → List String → Option (List RespItem)) :
    Prop :=
  ∀ i b items, oracle i b = some items →
    ∀ it ∈ items, ∀ dd, it.description = some dd → dd ∈ b

/-- A schema-conforming service: every category string it returns lies in
the enum (the configured categories plus "Uncategorized").  The request
declares this in its JSON schema; the response handler never re-checks it. -/
def oracleEnumConfined (oracle : Nat → List String → Option (List RespItem))
    (cats : List String) : Prop :=
  ∀ i b items, oracle i b = some items →
    ∀ it ∈ items, ∀ cc, it.category = some cc → cc ∈ cats ∨ cc = "Uncategorized"

/-! ### MainCategorizer (`src/categorizers/main.py`) -/

/-- main.py line 43: the set of descriptions the keyword tier left
"Uncategorized", which is what gets forwarded to the model tier. -/
def MainCategorizer.unresolvedOf (kc : KeywordCategorizer)
    (descriptions : List String) : List String :=
  ((kc.categorize descriptions).filter (fun p => p.2 == "Uncategorized")).map
    (fun p => p.1)

/-- `MainCategorizer.categorize` (main.py lines 29-58) against an abstract
model tier: `model` returns `none` when the model-tier invocation raises
as a whole (the `except` of line 52 keeps the keyword results), else the
mapping whose bindings are folded in with `keyword_results.update(...)`. -/
def MainCategorizer.categorize (kc : KeywordCategorizer)
    (model : List String → Option (List (String × String)))
    (descriptions : List String) : List (String × String) :=
  let keyword_results := kc.categorize descriptions
  let uncategorized := MainCategorizer.unresolvedOf kc descriptions
  if uncategorized.isEmpty then keyword_results
  else
    match model uncategorized with
    | none => keyword_results
    | some openai_results => dictUpdate keyword_results openai_results

/-- `MainCategorizer.categorize` composed with the concrete
`OpenAICategorizer.categorize` model tier, as wired in main.py line 48. -/
def MainCategorizer.categorizeFull (kc : KeywordCategorizer)
    (oracle : Nat → List String → Option (List RespItem))
    (infoEnabled : Bool) (descriptions : List String) :
    List (String × String) :=
  MainCategorizer.categorize kc
    (fun un => some (OpenAICategorizer.categorize oracle infoEnabled un))
    descriptions

/-! ### DescriptionNormalizer (`src/transaction_processor.py`,
`clean_descriptions`, lines 55-84)

Each regex removal rule is embedded as a matcher `List Char → Option
(List Char)` that, at the current position, either fails or consumes the
(leftmost-greedy) match and returns the remaining suffix; `re.sub(p, '',
s)` is the left-to-right scan `subAll`.  The patterns involved are
deterministic for Python's backtracking: every `\d+`/`\*+`/`\s+` is
followed by a character its own class excludes, so maximal munch is
exact. -/

/-- Python's `\s` (ASCII range): the whitespace class used by the
`\s+`-collapse, the `^Einkauf\s+` rule and `str.strip()`. -/
def isSpaceChar (c : Char) : Bool :=
  c == ' ' || c == '\t' || c == '\n' || c == '\r' || c == '\x0b' || c == '\x0c'

/-- Consume an exact literal. -/
def eatStr (pat l : List Char) : Option (List Char) :=
  if pat.isPrefixOf l then some (l.drop pat.length) else none

/-- Consume exactly `k` characters of class `p` (e.g. `\d{2}`). -/
def eatN (k : Nat) (p : Char → Bool) (l : List Char) : Option (List Char) :=
  if (l.take k).length == k && (l.take k).all p then some (l.drop k) else none

/-- Consume one or more characters of class `p`, greedily (e.g. `\d+`). -/
def eatPlus (p : Char → Bool) : List Char → Option (List Char)
  | [] => none
  | c :: rest => if p c then some (rest.dropWhile p) else none

/-- `\d{2}\.\d{2}\.\d{4} \d{2}:\d{2}` — dates and times. -/
def matchDateTime (l : List Char) : Option (List Char) := do
  let l ← eatN 2 Char.isDigit l
  let l ← eatStr ['.'] l
  let l ← eatN 2 Char.isDigit l
  let l ← eatStr ['.'] l
  let l ← eatN 4 Char.isDigit l
  let l ← eatStr [' '] l
  let l ← eatN 2 Char.isDigit l
  let l ← eatStr [':'] l
  eatN 2 Char.isDigit l

/-- `Karte: \d+\*+\d+` — masked card numbers. -/
def matchKarte (l : List Char) : Option (List Char) := do
  let l ← eatStr "Karte: ".data l
  let l ← eatPlus Char.isDigit l
  let l ← eatPlus (fun c => c == '*') l
  eatPlus Char.isDigit l

/-- `[A-Z]` for the currency code of the amount rule. -/
def isUpperAZ (c : Char) : Bool :=
  decide ('A' ≤ c) && decide (c ≤ 'Z')

/-- `Betrag: [A-Z]{3} \d+\.\d+` — embedded amount annotations. -/
def matchBetrag (l : List Char) : Option (List Char) := do
  let l ← eatStr "Betrag: ".data l
  let l ← eatN 3 isUpperAZ l
  let l ← eatStr [' '] l
  let l ← eatPlus Char.isDigit l
  let l ← eatStr ['.'] l
  eatPlus Char.isDigit l

/-- `\d+\/PP\.\d+\.PP\/\.` — PayPal reference numbers. -/
def matchPaypal (l : List Char) : Option (List Char) := do
  let l ← eatPlus Char.isDigit l
  let l ← eatStr "/PP.".data l
  let l ← eatPlus Char.isDigit l
  eatStr ".PP/.".data l

/-- `Ihr Einkauf bei` — the fixed promotional phrase. -/
def matchIhr (l : List Char) : Option (List Char) :=
  eatStr "Ihr Einkauf bei".data l

/-- `^Einkauf\s+` — the anchored leading marker word (with its trailing
whitespace run). -/
def matchEinkaufStart (l : List Char) : Option (List Char) := do
  let l ← eatStr "Einkauf".data l
  eatPlus isSpaceChar l

/-- `re.sub(pattern, '', s)`: scan left to right; at each position either
remove a match and continue after it, or emit the character and advance.
Fuelled (one unit per position) for structural recursion; `subAll`
supplies sufficient fuel, and each of the matchers above consumes at
least one character whenever it succeeds. -/
def subAllF (m : List Char → Option (List Char)) : Nat → List Char → List Char
  | _, [] => []
  | 0, l => l
  | fuel + 1, c :: cs =>
    match m (c :: cs) with
    | some rest =>
        if rest.length < cs.length + 1 then subAllF m fuel rest
        else c :: subAllF m fuel cs
    | none => c :: subAllF m fuel cs

/-- Remove every (leftmost, non-overlapping) match of `m` from `l`. -/
def subAll (m : List Char → Option (List Char)) (l : List Char) : List Char :=
  subAllF m l.length l

/-- The anchored rule: `re.sub(r'^Einkauf\s+', '', s)` removes at most the
one match at position 0. -/
def stripLeadEinkauf (l : List Char) : List Char :=
  match matchEinkaufStart l with
  | some rest => rest
  | none => l

/-- The six removal rules of transaction_processor.py lines 66-73, applied
in source order. -/
def patternsPass (l : List Char) : List Char :=
  subAll matchIhr
    (subAll matchPaypal
      (stripLeadEinkauf
        (subAll matchBetrag
          (subAll matchKarte
            (subAll matchDateTime l)))))

/-- `re.sub(r'\s+', ' ', s)` (line 80): collapse every whitespace run to a
single space. -/
def collapseWs : List Char → List Char
  | [] => []
  | [c] => if isSpaceChar c then [' '] else [c]
  | c :: d :: rest =>
    if isSpaceChar c then
      if isSpaceChar d then collapseWs (d :: rest)
      else ' ' :: collapseWs (d :: rest)
    else c :: collapseWs (d :: rest)

/-- `str.strip()` (line 81): drop leading and trailing whitespace. -/
def stripWs (l : List Char) : List Char :=
  ((l.dropWhile isSpaceChar).reverse.dropWhile isSpaceChar).reverse

/-- The full per-description cleaning sequence of `clean_descriptions`:
pattern removals, whitespace collapsing, trimming. -/
def cleanChars (l : List Char) : List Char :=
  stripWs (collapseWs (patternsPass l))

/-- `clean_descriptions` applied to one description string. -/
def cleanDescription (s : String) : String :=
  ⟨cleanChars s.data⟩

/-! ### Lemmas about the association-list dictionary operations -/

theorem overwrite_fst {k v : String} (p : String × String) :
    (if p.1 == k then (k, v) else p).1 = p.1 := by
  by_cases hpk : p.1 = k
  · simp [hpk]
  · simp [beq_iff_eq, hpk]

theorem dictInsert_keys_of_mem {m : List (String × String)} {k v : String}
    (h : k ∈ m.map Prod.fst) :
    (dictInsert m k v).map Prod.fst = m.map Prod.fst := by
  have hany : m.any (fun p => p.1 == k) = true := by
    simp only [List.any_eq_true, beq_iff_eq]
    obtain ⟨p, hp, hk⟩ := List.mem_map.mp h
    exact ⟨p, hp, hk⟩
  simp only [dictInsert, hany, if_true, List.map_map]
  apply List.map_congr_left
  intro p _
  exact overwrite_fst p

theorem mem_keys_dictInsert {m : List (String × String)} {k v x : String}
    (h : x ∈ (dictInsert m k v).map Prod.fst) :
    x ∈ m.map Prod.fst ∨ x = k := by
  unfold dictInsert at h
  split at h
  · simp only [List.map_map, List.mem_map, Function.comp_apply] at h
    obtain ⟨p, hp, hx⟩ := h
    rw [overwrite_fst p] at hx
    exact Or.inl (List.mem_map.mpr ⟨p, hp, hx⟩)
  · simp only [List.map_append, List.mem_append, List.map_cons, List.map_nil,
      List.mem_cons, List.not_mem_nil, or_false] at h
    exact h

theorem keys_subset_dictInsert {m : List (String × String)} {k v x : String}
    (h : x ∈ m.map Prod.fst) : x ∈ (dictInsert m k v).map Prod.fst := by
  unfold dictInsert
  split
  · simp only [List.map_map, List.mem_map, Function.comp_apply]
    obtain ⟨p, hp, hx⟩ := List.mem_map.mp h
    exact ⟨p, hp, by rw [overwrite_fst p]; exact hx⟩
  · simp [h]

theorem mem_values_dictInsert {m : List (String × String)} {k v x : String}
    (h : x ∈ (dictInsert m k v).map Prod.snd) :
    x ∈ m.map Prod.snd ∨ x = v := by
  unfold dictInsert at h
  split at h
  · simp only [List.map_map, List.mem_map, Function.comp_apply] at h
    obtain ⟨p, hp, hx⟩ := h
    by_cases hpk : p.1 = k
    · right; rw [← hx]; simp [hpk]
    · left
      refine List.mem_map.mpr ⟨p, hp, ?_⟩
      rw [← hx]; simp [beq_iff_eq, hpk]
  · simp only [List.map_append, List.mem_append, List.map_cons, List.map_nil,
      List.mem_cons, List.not_mem_nil, or_false] at h
    exact h

theorem overwrite_eval_pos {k v : String} {p : String × String} (h : p.1 = k) :
    (if p.1 == k then (k, v) else p) = (k, v) := by
  simp [h]

theorem overwrite_eval_neg {k v : String} {p : String × String} (h : p.1 ≠ k) :
    (if p.1 == k then (k, v) else p) = p := by
  simp [beq_iff_eq, h]

theorem lookup_overwrite_ne {m : List (String × String)} {k v k' : String}
    (h : k' ≠ k) :
    (m.map (fun p => if p.1 == k then (k, v) else p)).lookup k' =
      m.lookup k' := by
  induction m with
  | nil => rfl
  | cons p rest ih =>
    obtain ⟨pk, pv⟩ := p
    rw [List.map_cons]
    by_cases hpk : pk = k
    · rw [overwrite_eval_pos hpk]
      have hne : (k' == k) = false := by simpa using h
      have hne' : (k' == pk) = false := by simpa [hpk] using h
      simp only [List.lookup_cons, hne, hne']
      exact ih
    · rw [overwrite_eval_neg hpk]
      cases hk' : (k' == pk)
      · simp only [List.lookup_cons, hk']
        exact ih
      · simp only [List.lookup_cons, hk']

theorem lookup_dictInsert_ne {m : List (String × String)} {k v k' : String}
    (h : k' ≠ k) : (dictInsert m k v).lookup k' = m.lookup k' := by
  unfold dictInsert
  split
  · exact lookup_overwrite_ne h
  · have hne : (k' == k) = false := by simpa using h
    simp [List.lookup_append, List.lookup_cons, hne, Option.or_none]

theorem dictInsert_self {m : List (String × String)} {k v : String}
    (hmem : k ∈ m.map Prod.fst)
    (hval : ∀ p ∈ m, p.1 = k → p.2 = v) :
    dictInsert m k v = m := by
  have hany : m.any (fun p => p.1 == k) = true := by
    simp only [List.any_eq_true, beq_iff_eq]
    obtain ⟨p, hp, hk⟩ := List.mem_map.mp hmem
    exact ⟨p, hp, hk⟩
  simp only [dictInsert, hany, if_true]
  conv_rhs => rw [← List.map_id m]
  apply List.map_congr_left
  intro p hp
  by_cases hpk : p.1 == k
  · have h1 : p.1 = k := eq_of_beq hpk
    have h2 : p.2 = v := hval p hp h1
    simp [hpk, ← h1, ← h2]
  · simp [hpk]

theorem dictUpdate_keys {m other : List (String × String)}
    (h : ∀ p ∈ other, p.1 ∈ m.map Prod.fst) :
    (dictUpdate m other).map Prod.fst = m.map Prod.fst := by
  induction other generalizing m with
  | nil => rfl
  | cons p rest ih =>
    have hp : p.1 ∈ m.map Prod.fst := h p (List.mem_cons_self _ _)
    have hkeys := @dictInsert_keys_of_mem m p.1 p.2 hp
    simp only [dictUpdate, List.foldl_cons]
    rw [show (List.foldl (fun acc q => dictInsert acc q.1 q.2)
        (dictInsert m p.1 p.2) rest) = dictUpdate (dictInsert m p.1 p.2) rest
      from rfl]
    rw [ih (fun q hq => hkeys ▸ h q (List.mem_cons_of_mem _ hq)), hkeys]

theorem mem_values_dictUpdate {m other : List (String × String)} {x : String}
    (h : x ∈ (dictUpdate m other).map Prod.snd) :
    x ∈ m.map Prod.snd ∨ x ∈ other.map Prod.snd := by
  induction other generalizing m with
  | nil => exact Or.inl h
  | cons p rest ih =>
    simp only [dictUpdate, List.foldl_cons] at h
    rcases @ih (dictInsert m p.1 p.2) h with h1 | h1
    · rcases mem_values_dictInsert h1 with h2 | h2
      · exact Or.inl h2
      · right; simp [h2]
    · right; simp [h1]

theorem lookup_dictUpdate_not_mem {m other : List (String × String)} {k : String}
    (h : k ∉ other.map Prod.fst) :
    (dictUpdate m other).lookup k = m.lookup k := by
  induction other generalizing m with
  | nil => rfl
  | cons p rest ih =>
    simp only [List.map_cons, List.mem_cons, not_or] at h
    simp only [dictUpdate, List.foldl_cons]
    rw [show (List.foldl (fun acc q => dictInsert acc q.1 q.2)
        (dictInsert m p.1 p.2) rest) = dictUpdate (dictInsert m p.1 p.2) rest
      from rfl]
    rw [ih h.2, lookup_dictInsert_ne h.1]

theorem dictUpdate_self {m other : List (String × String)}
    (h : ∀ p ∈ other, p.1 ∈ m.map Prod.fst ∧ ∀ q ∈ m, q.1 = p.1 → q.2 = p.2) :
    dictUpdate m other = m := by
  induction other with
  | nil => rfl
  | cons p rest ih =>
    obtain ⟨hmem, hval⟩ := h p (List.mem_cons_self _ _)
    simp only [dictUpdate, List.foldl_cons]
    rw [dictInsert_self hmem hval]
    exact ih (fun q hq => h q (List.mem_cons_of_mem _ hq))

theorem lookup_of_lookup_append_left {m l : List (String × String)}
    {k : String} {v : String} (h : m.lookup k = some v) :
    (m ++ l).lookup k = some v := by
  rw [List.lookup_append, h]; rfl

theorem lookup_append_of_none {m l : List (String × String)} {k : String}
    (h : m.lookup k = none) : (m ++ l).lookup k = l.lookup k := by
  rw [List.lookup_append, h]; rfl

/-! ### Lemmas about the keyword tier -/

theorem keyword_keys (kc : KeywordCategorizer) (descs : List String) :
    (kc.categorize descs).map Prod.fst = descs := by
  simp [KeywordCategorizer.categorize, List.map_map, Function.comp_def]

theorem keyword_lookup (kc : KeywordCategorizer) {descs : List String}
    {d : String} (h : d ∈ descs) :
    (kc.categorize descs).lookup d =
      some ((firstMatch kc.keyword_rules (strLower d)).getD "Uncategorized") := by
  induction descs with
  | nil => cases h
  | cons d' rest ih =>
    simp only [KeywordCategorizer.categorize, List.map_cons, List.lookup_cons]
    by_cases hd : d = d'
    · subst hd; simp
    · have hne : (d == d') = false := by simpa using hd
      simp only [hne]
      rcases List.mem_cons.mp h with h1 | h1
      · exact absurd h1 hd
      · exact ih h1

theorem keyword_values_mem {kc : KeywordCategorizer} {descs : List String}
    {v : String} (h : v ∈ (kc.categorize descs).map Prod.snd) :
    (∃ kws, (v, kws) ∈ kc.keyword_rules) ∨ v = "Uncategorized" := by
  simp only [KeywordCategorizer.categorize, List.map_map, List.mem_map,
    Function.comp_apply] at h
  obtain ⟨d, _, hv⟩ := h
  cases hfm : firstMatch kc.keyword_rules (strLower d) with
  | none =>
    right
    rw [hfm] at hv
    exact hv.symm
  | some c =>
    left
    rw [hfm] at hv
    simp only [Option.getD_some] at hv
    obtain ⟨e, he, hec⟩ := List.exists_of_findSome?_eq_some hfm
    have h1 : e.1 = c := by
      by_cases hm : entryMatches (strLower d) e = true
      · simpa [hm] using hec
      · simp [hm] at hec
    refine ⟨e.2, ?_⟩
    have h2 : (v, e.2) = e := by rw [← hv, ← h1]
    rw [h2]
    exact he

theorem firstMatch_first {pre post : List (String × List String)}
    {c : String} {kws : List String} {dl : String}
    (hpre : ∀ p ∈ pre, entryMatches dl p = false)
    (hc : entryMatches dl (c, kws) = true) :
    firstMatch (pre ++ (c, kws) :: post) dl = some c := by
  induction pre with
  | nil => simp [firstMatch, List.findSome?_cons, hc]
  | cons p rest ih =>
    have hp : entryMatches dl p = false := hpre p (List.mem_cons_self _ _)
    simp only [List.cons_append, firstMatch, List.findSome?_cons, hp]
    simp only [Bool.false_eq_true, if_false]
    exact ih (fun q hq => hpre q (List.mem_cons_of_mem _ hq))

theorem firstMatch_none {rules : List (String × List String)} {dl : String}
    (h : ∀ p ∈ rules, entryMatches dl p = false) :
    firstMatch rules dl = none := by
  induction rules with
  | nil => rfl
  | cons p rest ih =>
    have hp : entryMatches dl p = false := h p (List.mem_cons_self _ _)
    simp only [firstMatch, List.findSome?_cons, hp, Bool.false_eq_true, if_false]
    exact ih (fun q hq => h q (List.mem_cons_of_mem _ hq))

theorem mem_unresolvedOf {kc : KeywordCategorizer} {descs : List String}
    {d : String} :
    d ∈ MainCategorizer.unresolvedOf kc descs ↔
      d ∈ descs ∧
      (firstMatch kc.keyword_rules (strLower d)).getD "Uncategorized" =
        "Uncategorized" := by
  unfold MainCategorizer.unresolvedOf KeywordCategorizer.categorize
  constructor
  · intro h
    obtain ⟨p, hpf, hpd⟩ := List.mem_map.mp h
    have hpmem := (List.mem_filter.mp hpf).1
    have hpu := (List.mem_filter.mp hpf).2
    obtain ⟨d', hd', hfd⟩ := List.mem_map.mp hpmem
    rw [← hfd] at hpd hpu
    simp only at hpd hpu
    subst hpd
    exact ⟨hd', by simpa using hpu⟩
  · rintro ⟨hd, hu⟩
    refine List.mem_map.mpr
      ⟨(d, (firstMatch kc.keyword_rules (strLower d)).getD "Uncategorized"),
        List.mem_filter.mpr ⟨List.mem_map.mpr ⟨d, hd, rfl⟩, by simpa using hu⟩,
        rfl⟩

/-- C5: For every description, the keyword tier lowercases it and tests each
configured category's keywords (lowercased) as substrings, in the configured
(rules) order; the first category with any matching keyword is assigned
(first match wins, not best match), and a description matching no category's
keywords is assigned "Uncategorized". -/
theorem C5_keyword_first_match (kc : KeywordCategorizer) (descs : List String)
    (d : String) (hd : d ∈ descs) :
    (∀ pre c kws post, kc.keyword_rules = pre ++ (c, kws) :: post →
      (∀ p ∈ pre, entryMatches (strLower d) p = false) →
      entryMatches (strLower d) (c, kws) = true →
      (kc.categorize descs).lookup d = some c) ∧
    ((∀ p ∈ kc.keyword_rules, entryMatches (strLower d) p = false) →
      (kc.categorize descs).lookup d = some "Uncategorized") := by
  constructor
  · intro pre c kws post hrules hpre hc
    rw [keyword_lookup kc hd, hrules, firstMatch_first hpre hc]
    rfl
  · intro h
    rw [keyword_lookup kc hd, firstMatch_none h]
    rfl

/-- Witness for C5, on the spec's scenario: with rules
Groceries ↦ [migros], Transport ↦ [sbb], the description "SBB Ticket" is
assigned "Transport" (the first matching category). -/
theorem C5_keyword_first_match_witness :
    (KeywordCategorizer.categorize
      ⟨["Groceries", "Transport"],
        [("Groceries", ["migros"]), ("Transport", ["sbb"])]⟩
      ["MIGROS Zurich", "SBB Ticket", "Unknown Shop"]).lookup "SBB Ticket" =
      some "Transport" :=
  (C5_keyword_first_match
      ⟨["Groceries", "Transport"],
        [("Groceries", ["migros"]), ("Transport", ["sbb"])]⟩
      ["MIGROS Zurich", "SBB Ticket", "Unknown Shop"] "SBB Ticket"
      (by decide)).1
    [("Groceries", ["migros"])] "Transport" ["sbb"] [] rfl (by decide)
    (by decide)

/-! ### Lemmas about the model tier -/

theorem chunkedF_nil : ∀ fuel, chunkedF fuel [] = []
  | 0 => rfl
  | _ + 1 => rfl

theorem chunkedF_flatten :
    ∀ (fuel : Nat) (l : List String), l.length ≤ fuel →
      (chunkedF fuel l).flatten = l := by
  intro fuel
  induction fuel with
  | zero =>
    intro l hl
    have : l = [] := List.eq_nil_of_length_eq_zero (Nat.le_zero.mp hl)
    subst this
    rfl
  | succ n ih =>
    intro l hl
    cases l with
    | nil => rfl
    | cons c cs =>
      show ((c :: cs).take 50 :: chunkedF n ((c :: cs).drop 50)).flatten = c :: cs
      rw [List.flatten_cons, ih _ (by simp at hl ⊢; omega),
        List.take_append_drop]

theorem chunked_flatten (l : List String) : (chunked l).flatten = l :=
  chunkedF_flatten l.length l le_rfl

theorem chunkedF_le50 :
    ∀ (fuel : Nat) (l : List String), ∀ b ∈ chunkedF fuel l, b.length ≤ 50 := by
  intro fuel
  induction fuel with
  | zero =>
    intro l b hb
    rw [show chunkedF 0 l = [] from by cases l <;> rfl] at hb
    cases hb
  | succ n ih =>
    intro l b hb
    cases l with
    | nil => cases hb
    | cons c cs =>
      rcases List.mem_cons.mp hb with h | h
      · subst h
        simp [List.length_take]
      · exact ih _ b h

theorem foldl_recordItem_keys {items : List RespItem} {b : List String}
    (hit : ∀ it ∈ items, ∀ dd, it.description = some dd → dd ∈ b) :
    ∀ results x, x ∈ (items.foldl recordItem results).map Prod.fst →
      x ∈ results.map Prod.fst ∨ x ∈ b := by
  induction items with
  | nil => intro results x hx; exact Or.inl hx
  | cons it rest ih =>
    intro results x hx
    rw [List.foldl_cons] at hx
    rcases ih (fun j hj => hit j (List.mem_cons_of_mem _ hj)) _ x hx with h | h
    · unfold recordItem at h
      cases hdd : it.description with
      | none => rw [hdd] at h; exact Or.inl h
      | some dd =>
        cases hcc : it.category with
        | none => rw [hdd, hcc] at h; exact Or.inl h
        | some cc =>
          rw [hdd, hcc] at h
          rcases mem_keys_dictInsert h with h1 | h1
          · exact Or.inl h1
          · exact Or.inr (h1 ▸ hit it (List.mem_cons_self _ _) dd hdd)
    · exact Or.inr h

theorem foldl_recordItem_values {items : List RespItem} {cats : List String}
    (hit : ∀ it ∈ items, ∀ cc, it.category = some cc →
      cc ∈ cats ∨ cc = "Uncategorized") :
    ∀ results x, x ∈ (items.foldl recordItem results).map Prod.snd →
      x ∈ results.map Prod.snd ∨ x ∈ cats ∨ x = "Uncategorized" := by
  induction items with
  | nil => intro results x hx; exact Or.inl hx
  | cons it rest ih =>
    intro results x hx
    rw [List.foldl_cons] at hx
    rcases ih (fun j hj => hit j (List.mem_cons_of_mem _ hj)) _ x hx with h | h
    · unfold recordItem at h
      cases hdd : it.description with
      | none => rw [hdd] at h; exact Or.inl h
      | some dd =>
        cases hcc : it.category with
        | none => rw [hdd, hcc] at h; exact Or.inl h
        | some cc =>
          rw [hdd, hcc] at h
          rcases mem_values_dictInsert h with h1 | h1
          · exact Or.inl h1
          · exact Or.inr (h1 ▸ hit it (List.mem_cons_self _ _) cc hcc)
    · exact Or.inr h

theorem processBatches_keys {oracle : Nat → List String → Option (List RespItem)}
    (hconf : oracleConfined oracle) :
    ∀ (bs : List (List String)) (i : Nat) (results : List (String × String))
      (x : String), x ∈ (processBatches oracle i bs results).map Prod.fst →
      x ∈ results.map Prod.fst ∨ ∃ b ∈ bs, x ∈ b := by
  intro bs
  induction bs with
  | nil => intro i results x hx; exact Or.inl hx
  | cons b rest ih =>
    intro i results x hx
    rcases ih (i + 1) (processBatch results (oracle i b)) x hx with h | h
    · unfold processBatch at h
      cases hor : oracle i b with
      | none => rw [hor] at h; exact Or.inl h
      | some items =>
        rw [hor] at h
        rcases foldl_recordItem_keys (hconf i b items hor) results x h with
          h1 | h1
        · exact Or.inl h1
        · exact Or.inr ⟨b, List.mem_cons_self _ _, h1⟩
    · obtain ⟨b', hb', hxb⟩ := h
      exact Or.inr ⟨b', List.mem_cons_of_mem _ hb', hxb⟩

theorem processBatches_values
    {oracle : Nat → List String → Option (List RespItem)} {cats : List String}
    (hcats : oracleEnumConfined oracle cats) :
    ∀ (bs : List (List String)) (i : Nat) (results : List (String × String))
      (x : String), x ∈ (processBatches oracle i bs results).map Prod.snd →
      x ∈ results.map Prod.snd ∨ x ∈ cats ∨ x = "Uncategorized" := by
  intro bs
  induction bs with
  | nil => intro i results x hx; exact Or.inl hx
  | cons b rest ih =>
    intro i results x hx
    rcases ih (i + 1) (processBatch results (oracle i b)) x hx with h | h
    · unfold processBatch at h
      cases hor : oracle i b with
      | none => rw [hor] at h; exact Or.inl h
      | some items =>
        rw [hor] at h
        exact foldl_recordItem_values (hcats i b items hor) results x h
    · exact Or.inr h

theorem processBatches_none :
    ∀ (bs : List (List String)) (i : Nat) (results : List (String × String)),
      processBatches (fun _ _ => none) i bs results = results := by
  intro bs
  induction bs with
  | nil => intro i results; rfl
  | cons b rest ih => intro i results; exact ih (i + 1) results

theorem mem_keys_infoStep {m : List (String × String)} {d x : String}
    (h : x ∈ (infoStep m d).map Prod.fst) : x ∈ m.map Prod.fst ∨ x = d := by
  unfold infoStep at h
  split at h
  · exact Or.inl h
  · simp only [List.map_append, List.mem_append, List.map_cons, List.map_nil,
      List.mem_cons, List.not_mem_nil, or_false] at h
    exact h

theorem mem_values_infoStep {m : List (String × String)} {d x : String}
    (h : x ∈ (infoStep m d).map Prod.snd) :
    x ∈ m.map Prod.snd ∨ x = "Uncategorized" := by
  unfold infoStep at h
  split at h
  · exact Or.inl h
  · simp only [List.map_append, List.mem_append, List.map_cons, List.map_nil,
      List.mem_cons, List.not_mem_nil, or_false] at h
    exact h

theorem infoFill_keys {descs : List String} :
    ∀ (results : List (String × String)) (x : String),
      x ∈ (infoFill descs results).map Prod.fst →
      x ∈ results.map Prod.fst ∨ x ∈ descs := by
  induction descs with
  | nil => intro results x hx; exact Or.inl hx
  | cons d rest ih =>
    intro results x hx
    rcases ih (infoStep results d) x hx with h | h
    · rcases mem_keys_infoStep h with h1 | h1
      · exact Or.inl h1
      · exact Or.inr (h1 ▸ List.mem_cons_self _ _)
    · exact Or.inr (List.mem_cons_of_mem _ h)

theorem infoFill_values {descs : List String} :
    ∀ (results : List (String × String)) (x : String),
      x ∈ (infoFill descs results).map Prod.snd →
      x ∈ results.map Prod.snd ∨ x = "Uncategorized" := by
  induction descs with
  | nil => intro results x hx; exact Or.inl hx
  | cons d rest ih =>
    intro results x hx
    rcases ih (infoStep results d) x hx with h | h
    · exact mem_values_infoStep h
    · exact Or.inr h

theorem infoStep_lookup_self {m : List (String × String)} {d : String} :
    (infoStep m d).lookup d = some ((m.lookup d).getD "Uncategorized") := by
  unfold infoStep
  cases h : m.lookup d with
  | some w => simp [h]
  | none =>
    rw [if_neg (by simp [h]), lookup_append_of_none h]
    simp

theorem infoStep_lookup_ne {m : List (String × String)} {d d' : String}
    (h : d ≠ d') : (infoStep m d').lookup d = m.lookup d := by
  unfold infoStep
  split
  · rfl
  · have hne : (d == d') = false := by simpa using h
    rw [List.lookup_append]
    cases hm : m.lookup d
    · simp [List.lookup_cons, hne]
    · rfl

theorem infoFill_preserves_lookup {d : String} {v : String} :
    ∀ (descs : List String) (m : List (String × String)),
      m.lookup d = some v → (infoFill descs m).lookup d = some v := by
  intro descs
  induction descs with
  | nil => intro m hm; exact hm
  | cons d' rest ih =>
    intro m hm
    apply ih
    unfold infoStep
    split
    · exact hm
    · exact lookup_of_lookup_append_left hm

theorem infoFill_lookup {d : String} :
    ∀ (descs : List String) (results : List (String × String)), d ∈ descs →
      (infoFill descs results).lookup d =
        some ((results.lookup d).getD "Uncategorized") := by
  intro descs
  induction descs with
  | nil => intro results h; cases h
  | cons d' rest ih =>
    intro results h
    by_cases hdd : d = d'
    · subst hdd
      cases hres : results.lookup d with
      | some w =>
        have h1 : (infoStep results d).lookup d = some w := by
          rw [infoStep_lookup_self, hres]; rfl
        have h2 := infoFill_preserves_lookup rest _ h1
        rw [show infoFill (d :: rest) results = infoFill rest (infoStep results d)
          from rfl, h2]
        simp [hres]
      | none =>
        have h1 : (infoStep results d).lookup d = some "Uncategorized" := by
          rw [infoStep_lookup_self, hres]; simp
        have h2 := infoFill_preserves_lookup rest _ h1
        rw [show infoFill (d :: rest) results = infoFill rest (infoStep results d)
          from rfl, h2]
        simp [hres]
    · have hmem : d ∈ rest := by
        rcases List.mem_cons.mp h with h1 | h1
        · exact absurd h1 hdd
        · exact h1
      rw [show infoFill (d' :: rest) results = infoFill rest (infoStep results d')
        from rfl, ih _ hmem, infoStep_lookup_ne hdd]

theorem mem_infoFill {p : String × String} :
    ∀ (descs : List String) (m : List (String × String)),
      p ∈ infoFill descs m → p ∈ m ∨ (p.1 ∈ descs ∧ p.2 = "Uncategorized") := by
  intro descs
  induction descs with
  | nil => intro m h; exact Or.inl h
  | cons d rest ih =>
    intro m h
    rcases ih (infoStep m d) h with h1 | h1
    · unfold infoStep at h1
      split at h1
      · exact Or.inl h1
      · rcases List.mem_append.mp h1 with h2 | h2
        · exact Or.inl h2
        · right
          rcases List.mem_cons.mp h2 with h3 | h3
          · subst h3
            exact ⟨List.mem_cons_self _ _, rfl⟩
          · cases h3
    · exact Or.inr ⟨List.mem_cons_of_mem _ h1.1, h1.2⟩

theorem openai_keys {oracle : Nat → List String → Option (List RespItem)}
    {info : Bool} {descs : List String} (hconf : oracleConfined oracle) :
    ∀ x ∈ (OpenAICategorizer.categorize oracle info descs).map Prod.fst,
      x ∈ descs := by
  intro x hx
  unfold OpenAICategorizer.categorize at hx
  split at hx
  · cases hx
  · have hbatch :
        ∀ y ∈ (processBatches oracle 0 (chunked descs) []).map Prod.fst,
          y ∈ descs := by
      intro y hy
      rcases processBatches_keys hconf (chunked descs) 0 [] y hy with h | h
      · cases h
      · obtain ⟨b, hb, hyb⟩ := h
        rw [← chunked_flatten descs]
        exact List.mem_flatten.mpr ⟨b, hb, hyb⟩
    split at hx
    · rcases infoFill_keys _ x hx with h | h
      · exact hbatch x h
      · exact h
    · exact hbatch x hx

theorem openai_values {oracle : Nat → List String → Option (List RespItem)}
    {info : Bool} {descs cats : List String}
    (hcats : oracleEnumConfined oracle cats) :
    ∀ x ∈ (OpenAICategorizer.categorize oracle info descs).map Prod.snd,
      x ∈ cats ∨ x = "Uncategorized" := by
  intro x hx
  unfold OpenAICategorizer.categorize at hx
  split at hx
  · cases hx
  · have hbatch :
        ∀ y ∈ (processBatches oracle 0 (chunked descs) []).map Prod.snd,
          y ∈ cats ∨ y = "Uncategorized" := by
      intro y hy
      rcases processBatches_values hcats (chunked descs) 0 [] y hy with h | h
      · cases h
      · exact h
    split at hx
    · rcases infoFill_values _ x hx with h | h
      · exact hbatch x h
      · exact Or.inr h
    · exact hbatch x hx

theorem chunked_single {l : List String} (h1 : l ≠ []) (h2 : l.length ≤ 50) :
    chunked l = [l] := by
  cases l with
  | nil => exact absurd rfl h1
  | cons c cs =>
    show (c :: cs).take 50 :: chunkedF (cs.length) ((c :: cs).drop 50) = [c :: cs]
    rw [List.take_of_length_le h2, List.drop_of_length_le h2, chunkedF_nil]

theorem mem_keyword_entry {kc : KeywordCategorizer} {descs : List String}
    {q : String × String} (h : q ∈ kc.categorize descs) :
    q.1 ∈ descs ∧
    q.2 = (firstMatch kc.keyword_rules (strLower q.1)).getD "Uncategorized" := by
  unfold KeywordCategorizer.categorize at h
  obtain ⟨d, hd, hq⟩ := List.mem_map.mp h
  rw [← hq]
  exact ⟨hd, rfl⟩

/-- C4: For every input set of unresolved descriptions, the model tier
partitions it into ordered batches of at most 50 descriptions each, whose
union equals the input set exactly with no description appearing in more
than one batch (for any input size, including 0, 1 and exact multiples of
50); and for the empty input set it returns an empty mapping without
issuing any request (the batch list itself is empty). -/
theorem C4_batch_partitioning (descs : List String) (h : descs.Nodup) :
    (chunked descs).flatten = descs ∧
    (∀ b ∈ chunked descs, b.length ≤ 50) ∧
    List.Pairwise List.Disjoint (chunked descs) ∧
    (∀ oracle info, OpenAICategorizer.categorize oracle info [] = []) ∧
    chunked [] = [] := by
  refine ⟨chunked_flatten descs, fun b hb => chunkedF_le50 _ _ b hb, ?_, ?_, rfl⟩
  · have hnodup : (chunked descs).flatten.Nodup := by
      rw [chunked_flatten descs]; exact h
    exact (List.nodup_flatten.mp hnodup).2
  · intro oracle info; rfl

/-- Witness for C4 at a 120-element input (three batches of 50, 50, 20). -/
theorem C4_batch_partitioning_witness :
    (chunked ((List.range 120).map (fun n => toString n))).flatten =
      (List.range 120).map (fun n => toString n) :=
  (C4_batch_partitioning ((List.range 120).map (fun n => toString n))
    (by decide)).1

/-- C10: The key set returned by the model tier depends on the logger's
INFO level: with INFO enabled the defaultdict logging loop materialises an
entry for every requested description (recorded value, else the default
"Uncategorized"), whereas with INFO disabled the descriptions of failed
batches are absent — shown concretely on a one-description input whose
only batch fails. -/
theorem C10_log_level_dependence :
    (∀ oracle descs d, d ∈ descs →
      (OpenAICategorizer.categorize oracle true descs).lookup d =
        some (((processBatches oracle 0 (chunked descs) []).lookup d).getD
          "Uncategorized")) ∧
    OpenAICategorizer.categorize (fun _ _ => none) false ["a"] = [] ∧
    OpenAICategorizer.categorize (fun _ _ => none) true ["a"] =
      [("a", "Uncategorized")] := by
  refine ⟨?_, by decide, by decide⟩
  intro oracle descs d hd
  have hne : descs.isEmpty = false := by
    cases descs with
    | nil => cases hd
    | cons c cs => rfl
  unfold OpenAICategorizer.categorize
  rw [if_neg (by simp [hne]), if_pos rfl]
  exact infoFill_lookup descs _ hd

/-- Witness for C10's universally quantified INFO-enabled conjunct. -/
theorem C10_log_level_dependence_witness :
    (OpenAICategorizer.categorize (fun _ _ => none) true ["a", "b"]).lookup "b"
      = some "Uncategorized" := by
  have h := C10_log_level_dependence.1 (fun _ _ => none) ["a", "b"] "b"
    (by decide)
  simpa using h

/-- C3: If every batch-level request of the model tier raises (or the
model-tier invocation fails as a whole), MainCategorizer.categorize does
not raise and returns exactly the keyword-tier mapping; and an error in
one batch does not prevent the remaining batches from being processed
(shown on a 60-description input whose first batch fails and whose second
batch is recorded). -/
theorem C3_total_model_failure :
    (∀ (kc : KeywordCategorizer) (info : Bool) (descs : List String),
      MainCategorizer.categorizeFull kc (fun _ _ => none) info descs =
        kc.categorize descs) ∧
    (∀ (kc : KeywordCategorizer) (descs : List String),
      MainCategorizer.categorize kc (fun _ => none) descs =
        kc.categorize descs) ∧
    OpenAICategorizer.categorize
        (fun i _ => if i == 0 then none
          else some [⟨some "55", some "Food"⟩]) false
        ((List.range 60).map (fun n => toString n)) = [("55", "Food")] := by
  refine ⟨?_, ?_, by decide⟩
  · intro kc info descs
    unfold MainCategorizer.categorizeFull MainCategorizer.categorize
    by_cases hu : (MainCategorizer.unresolvedOf kc descs).isEmpty
    · simp [hu]
    · simp only [hu, if_false, Bool.false_eq_true]
      set u := MainCategorizer.unresolvedOf kc descs with hu_def
      have hunil : u.isEmpty = false := by
        cases h : u.isEmpty
        · rfl
        · exact absurd h hu
      unfold OpenAICategorizer.categorize
      rw [if_neg (by simp [hunil]), processBatches_none]
      cases info with
      | false => rfl
      | true =>
        show dictUpdate (kc.categorize descs) (infoFill u []) = _
        apply dictUpdate_self
        intro p hp
        rcases mem_infoFill u [] hp with h1 | h1
        · cases h1
        · obtain ⟨hpu, hpv⟩ := h1
          have hmem := mem_unresolvedOf.mp (hu_def ▸ hpu)
          constructor
          · rw [keyword_keys]; exact hmem.1
          · intro q hq hq1
            have hqe := mem_keyword_entry hq
            rw [hqe.2, hq1, hmem.2, hpv]
  · intro kc descs
    unfold MainCategorizer.categorize
    by_cases hu : (MainCategorizer.unresolvedOf kc descs).isEmpty
    · simp [hu]
    · simp [hu]

/-- C1 counterexample: the claim fails as stated.  With input set {"a"},
no keyword rules and a model-tier response pair whose description "b" is
not in the input set, `keyword_results.update(openai_results)` adds the
foreign key, so the returned mapping has a key outside the input set. -/
theorem C1_totality_cex :
    "b" ∈ (MainCategorizer.categorizeFull ⟨["Food"], []⟩
        (fun _ _ => some [⟨some "b", some "Food"⟩]) false ["a"]).map Prod.fst
      ∧ "b" ∉ ["a"] := by decide

/-- C1 amended: provided every keyword-rule category is a configured
category (or "Uncategorized"), and the service only returns descriptions
from the requested batch with categories from the declared enum, the
mapping returned by MainCategorizer.categorize has exactly the input set
as its key sequence and every value in the configured categories united
with "Uncategorized". -/
theorem C1_totality_of_confined (kc : KeywordCategorizer)
    (oracle : Nat → List String → Option (List RespItem)) (info : Bool)
    (descs : List String)
    (hrules : ∀ p ∈ kc.keyword_rules, p.1 ∈ kc.categories ∨
      p.1 = "Uncategorized")
    (hdesc : oracleConfined oracle)
    (hcats : oracleEnumConfined oracle kc.categories) :
    (MainCategorizer.categorizeFull kc oracle info descs).map Prod.fst = descs
    ∧ ∀ v ∈ (MainCategorizer.categorizeFull kc oracle info descs).map Prod.snd,
        v ∈ kc.categories ∨ v = "Uncategorized" := by
  have hkwvals : ∀ v ∈ (kc.categorize descs).map Prod.snd,
      v ∈ kc.categories ∨ v = "Uncategorized" := by
    intro v hv
    rcases keyword_values_mem hv with ⟨kws, hkws⟩ | hv1
    · exact hrules (v, kws) hkws
    · exact Or.inr hv1
  unfold MainCategorizer.categorizeFull MainCategorizer.categorize
  by_cases hu : (MainCategorizer.unresolvedOf kc descs).isEmpty
  · simp only [hu, if_true]
    exact ⟨keyword_keys kc descs, hkwvals⟩
  · simp only [hu, if_false, Bool.false_eq_true]
    set u := MainCategorizer.unresolvedOf kc descs with hu_def
    set o := OpenAICategorizer.categorize oracle info u with ho_def
    have hokeys : ∀ p ∈ o, p.1 ∈ (kc.categorize descs).map Prod.fst := by
      intro p hp
      rw [keyword_keys]
      have h1 : p.1 ∈ o.map Prod.fst := List.mem_map.mpr ⟨p, hp, rfl⟩
      have h2 : p.1 ∈ u := openai_keys hdesc p.1 h1
      exact (mem_unresolvedOf.mp (hu_def ▸ h2)).1
    constructor
    · rw [dictUpdate_keys hokeys, keyword_keys]
    · intro v hv
      rcases mem_values_dictUpdate hv with h1 | h1
      · exact hkwvals v h1
      · exact openai_values hcats v h1

/-- Witness for C1's amended theorem at a concrete configuration and an
always-empty (hence trivially confined) service response. -/
theorem C1_totality_of_confined_witness :
    (MainCategorizer.categorizeFull ⟨["Groceries"], [("Groceries", ["migros"])]⟩
        (fun _ _ => some []) false ["MIGROS Zurich", "xx"]).map Prod.fst =
      ["MIGROS Zurich", "xx"] :=
  (C1_totality_of_confined ⟨["Groceries"], [("Groceries", ["migros"])]⟩
    (fun _ _ => some []) false ["MIGROS Zurich", "xx"] (by decide)
    (fun i b items h it hit dd _ => by
      have h1 : items = [] := by injection h with h2; exact h2.symm
      subst h1; cases hit)
    (fun i b items h it hit cc _ => by
      have h1 : items = [] := by injection h with h2; exact h2.symm
      subst h1; cases hit)).1

/-- C2 counterexample: the claim fails as stated.  "MIGROS" matches the
keyword "mig" of category "Food", yet when the service response (for the
forwarded set, here {"xyz"}) also echoes an entry for "MIGROS",
`keyword_results.update(openai_results)` overwrites the keyword result, so
the final category is what the model returned, not "Food". -/
theorem C2_keyword_precedence_cex :
    entryMatches (strLower "MIGROS") ("Food", ["mig"]) = true ∧
    (MainCategorizer.categorizeFull ⟨["Food"], [("Food", ["mig"])]⟩
        (fun _ _ => some [⟨some "MIGROS", some "Transport"⟩,
          ⟨some "xyz", some "Transport"⟩]) false
        ["MIGROS", "xyz"]).lookup "MIGROS" = some "Transport" := by decide

/-- C2 amended: if the first rules entry (in configured order) with a
keyword matching description d is category c, and c is not
"Uncategorized", then d is not forwarded to the model tier, and — provided
the service only returns descriptions belonging to the batch it was asked
about — the orchestrator's final mapping assigns c to d regardless of the
model-tier responses. -/
theorem C2_keyword_precedence_amended (kc : KeywordCategorizer)
    (oracle : Nat → List String → Option (List RespItem)) (info : Bool)
    (descs : List String) (d : String) (pre : List (String × List String))
    (c : String) (kws : List String) (post : List (String × List String))
    (hrules : kc.keyword_rules = pre ++ (c, kws) :: post)
    (hpre : ∀ p ∈ pre, entryMatches (strLower d) p = false)
    (hc : entryMatches (strLower d) (c, kws) = true)
    (hcU : c ≠ "Uncategorized")
    (hd : d ∈ descs)
    (hconf : oracleConfined oracle) :
    (MainCategorizer.categorizeFull kc oracle info descs).lookup d = some c ∧
    d ∉ MainCategorizer.unresolvedOf kc descs := by
  have hfm : firstMatch kc.keyword_rules (strLower d) = some c := by
    rw [hrules]; exact firstMatch_first hpre hc
  have hnu : d ∉ MainCategorizer.unresolvedOf kc descs := by
    intro hmem
    have := (mem_unresolvedOf.mp hmem).2
    rw [hfm] at this
    exact hcU this
  refine ⟨?_, hnu⟩
  have hkwl : (kc.categorize descs).lookup d = some c := by
    rw [keyword_lookup kc hd, hfm]; rfl
  unfold MainCategorizer.categorizeFull MainCategorizer.categorize
  by_cases hu : (MainCategorizer.unresolvedOf kc descs).isEmpty
  · simp only [hu, if_true]
    exact hkwl
  · simp only [hu, if_false, Bool.false_eq_true]
    rw [lookup_dictUpdate_not_mem, hkwl]
    intro hmem
    exact hnu (openai_keys hconf d hmem)

/-- Witness for C2's amended theorem on the spec scenario: "SBB Ticket"
stays "Transport" and is not forwarded. -/
theorem C2_keyword_precedence_amended_witness :
    (MainCategorizer.categorizeFull
        ⟨["Groceries", "Transport"],
          [("Groceries", ["migros"]), ("Transport", ["sbb"])]⟩
        (fun _ _ => some []) true
        ["MIGROS Zurich", "SBB Ticket", "Unknown Shop"]).lookup "SBB Ticket" =
      some "Transport" :=
  (C2_keyword_precedence_amended
    ⟨["Groceries", "Transport"],
      [("Groceries", ["migros"]), ("Transport", ["sbb"])]⟩
    (fun _ _ => some []) true ["MIGROS Zurich", "SBB Ticket", "Unknown Shop"]
    "SBB Ticket" [("Groceries", ["migros"])] "Transport" ["sbb"] []
    rfl (by decide) (by decide) (by decide) (by decide)
    (fun i b items h it hit dd _ => by
      have h1 : items = [] := by injection h with h2; exact h2.symm
      subst h1; cases hit)).1

/-- C6 counterexample: the claim fails as stated.  The response handler
(openai.py lines 172-174) records any pair carrying both keys without
checking the category against the enum, so with configured categories
["Food"] (enum ["Food", "Uncategorized"]) an out-of-enum category returned
by the service appears in the model tier's mapping. -/
theorem C6_enum_validation_cex :
    OpenAICategorizer.categorize
        (fun _ _ => some [⟨some "shop", some "NotARealCategory"⟩]) false
        ["shop"] = [("shop", "NotARealCategory")] ∧
    "NotARealCategory" ∉ ["Food", "Uncategorized"] := by decide

/-- C6 amended: a returned pair is recorded whenever both its
"description" and "category" fields are present — with no check of the
category against the enum, which is enforced only by the request's
declared JSON schema, so an arbitrary category string c is recorded as-is;
a pair missing either field is discarded individually without failing the
rest of the batch. -/
theorem C6_recording_amended (descs : List String) (d c junk : String)
    (h1 : descs ≠ []) (h2 : descs.length ≤ 50) :
    OpenAICategorizer.categorize (fun _ _ => some [⟨some d, some c⟩]) false
      descs = [(d, c)] ∧
    OpenAICategorizer.categorize
        (fun _ _ => some [⟨none, some junk⟩, ⟨some d, none⟩]) false descs
      = [] := by
  have hne : descs.isEmpty = false := by
    cases descs with
    | nil => exact absurd rfl h1
    | cons x xs => rfl
  constructor
  · unfold OpenAICategorizer.categorize
    rw [if_neg (by simp [hne]), chunked_single h1 h2]
    show (if false = true then _ else processBatch [] (some [⟨some d, some c⟩]))
      = [(d, c)]
    simp [processBatch, recordItem, dictInsert]
  · unfold OpenAICategorizer.categorize
    rw [if_neg (by simp [hne]), chunked_single h1 h2]
    show (if false = true then _
      else processBatch [] (some [⟨none, some junk⟩, ⟨some d, none⟩])) = []
    simp [processBatch, recordItem]

/-- Witness for C6's amended theorem: a category outside any plausible
enum is recorded verbatim; key-missing items are dropped. -/
theorem C6_recording_amended_witness :
    OpenAICategorizer.categorize (fun _ _ => some [⟨some "y", some "Z"⟩])
      false ["x"] = [("y", "Z")] :=
  (C6_recording_amended ["x"] "y" "Z" "J" (by decide) (by decide)).1

/-- C9: Constructing the model-tier categorizer mutates the caller-supplied
category list in place (openai.py lines 26-27 append "Uncategorized" to the
very list object shared, by reference, with MainCategorizer,
KeywordCategorizer and the caller), while the rest of the configuration
state is left unchanged.  The shared list object is modelled as the
`categories` field of a single configuration record. -/
structure Config where
  categories : List String
  keyword_rules : List (String × List String)
  category_hints : List (String × String)

/-- The observable effect of `MainCategorizer.__init__` (main.py lines
25-27) on the shared configuration state: `OpenAICategorizer.__init__`
(openai.py lines 25-28) appends "Uncategorized" to the shared category
list when absent; no other constructor mutates anything. -/
def MainCategorizer.construct (cfg : Config) : Config :=
  { cfg with
    categories :=
      if cfg.categories.contains "Uncategorized" then cfg.categories
      else cfg.categories ++ ["Uncategorized"] }

/-- C9: after MainCategorizer's construction the shared category list
contains "Uncategorized" (appended at the end exactly when it was absent,
untouched otherwise); the keyword rules and hint configuration are
unchanged. -/
theorem C9_constructor_mutation (cfg : Config) :
    "Uncategorized" ∈ (MainCategorizer.construct cfg).categories ∧
    (MainCategorizer.construct cfg).keyword_rules = cfg.keyword_rules ∧
    (MainCategorizer.construct cfg).category_hints = cfg.category_hints ∧
    ("Uncategorized" ∉ cfg.categories →
      (MainCategorizer.construct cfg).categories =
        cfg.categories ++ ["Uncategorized"]) ∧
    ("Uncategorized" ∈ cfg.categories →
      (MainCategorizer.construct cfg).categories = cfg.categories) := by
  unfold MainCategorizer.construct
  refine ⟨?_, rfl, rfl, ?_, ?_⟩
  · by_cases h : "Uncategorized" ∈ cfg.categories
    · show "Uncategorized" ∈ (if _ then _ else _)
      rw [if_pos (by simpa [List.contains_eq_any_beq] using
        List.any_beq.mpr h)]
      exact h
    · show "Uncategorized" ∈ (if _ then _ else _)
      rw [if_neg (by simpa [List.contains_eq_any_beq, List.any_beq] using h)]
      exact List.mem_append.mpr (Or.inr (List.mem_cons_self _ _))
  · intro h
    show (if _ then _ else _) = _
    rw [if_neg (by simpa [List.contains_eq_any_beq, List.any_beq] using h)]
  · intro h
    show (if _ then _ else _) = _
    rw [if_pos (by simpa [List.contains_eq_any_beq] using
      List.any_beq.mpr h)]

/-! ### Lemmas about the description normalizer -/

/-- No two adjacent whitespace characters. -/
def wsRel (a b : Char) : Prop :=
  ¬(isSpaceChar a = true ∧ isSpaceChar b = true)

/-- Whitespace-normal form: every whitespace character is a plain space
and no two are adjacent — the shape `collapseWs` produces. -/
def okWs (l : List Char) : Prop :=
  (∀ c ∈ l, isSpaceChar c = true → c = ' ') ∧ l.Chain' wsRel

theorem collapseWs_head? :
    ∀ (rest : List Char) (d : Char),
      (collapseWs (d :: rest)).head? =
        some (if isSpaceChar d = true then ' ' else d) := by
  intro rest
  induction rest with
  | nil =>
    intro d
    cases hd : isSpaceChar d <;> simp [collapseWs, hd]
  | cons e rs ih =>
    intro d
    cases hd : isSpaceChar d with
    | false => simp [collapseWs, hd]
    | true =>
      cases he : isSpaceChar e with
      | true => simp only [collapseWs, hd, he, if_true, ih e]
      | false => simp [collapseWs, hd, he]

theorem collapseWs_chain : ∀ l : List Char, (collapseWs l).Chain' wsRel := by
  intro l
  induction l with
  | nil => exact List.chain'_nil
  | cons c tail ih =>
    cases tail with
    | nil =>
      cases hc : isSpaceChar c <;>
        simp [collapseWs, hc, List.chain'_singleton]
    | cons d rest =>
      cases hc : isSpaceChar c with
      | true =>
        cases hd : isSpaceChar d with
        | true =>
          simpa [collapseWs, hc, hd] using ih
        | false =>
          rw [show collapseWs (c :: d :: rest) = ' ' :: collapseWs (d :: rest)
            from by simp [collapseWs, hc, hd]]
          refine List.chain'_cons'.mpr ⟨?_, ih⟩
          intro y hy
          rw [collapseWs_head?] at hy
          simp only [hd, Bool.false_eq_true, if_false, Option.mem_def,
            Option.some.injEq] at hy
          subst hy
          intro hcontra
          rw [hd] at hcontra
          exact Bool.false_ne_true hcontra.2
      | false =>
        rw [show collapseWs (c :: d :: rest) = c :: collapseWs (d :: rest)
          from by simp [collapseWs, hc]]
        refine List.chain'_cons'.mpr ⟨?_, ih⟩
        intro y hy
        intro hcontra
        rw [hc] at hcontra
        exact Bool.false_ne_true hcontra.1

theorem collapseWs_spaces :
    ∀ l : List Char, ∀ c ∈ collapseWs l, isSpaceChar c = true → c = ' ' := by
  intro l
  induction l with
  | nil => intro c hc; cases hc
  | cons a tail ih =>
    cases tail with
    | nil =>
      intro c hc hsp
      cases ha : isSpaceChar a <;> simp [collapseWs, ha] at hc
      · subst hc; rw [ha] at hsp; cases hsp
      · exact hc
    | cons d rest =>
      intro c hc hsp
      cases ha : isSpaceChar a with
      | true =>
        cases hd : isSpaceChar d with
        | true =>
          rw [show collapseWs (a :: d :: rest) = collapseWs (d :: rest)
            from by simp [collapseWs, ha, hd]] at hc
          exact ih c hc hsp
        | false =>
          rw [show collapseWs (a :: d :: rest) = ' ' :: collapseWs (d :: rest)
            from by simp [collapseWs, ha, hd]] at hc
          rcases List.mem_cons.mp hc with h | h
          · exact h
          · exact ih c h hsp
      | false =>
        rw [show collapseWs (a :: d :: rest) = a :: collapseWs (d :: rest)
          from by simp [collapseWs, ha]] at hc
        rcases List.mem_cons.mp hc with h | h
        · subst h; rw [ha] at hsp; cases hsp
        · exact ih c h hsp

theorem okWs_collapseWs (l : List Char) : okWs (collapseWs l) :=
  ⟨collapseWs_spaces l, collapseWs_chain l⟩

theorem collapseWs_of_okWs : ∀ l : List Char, okWs l → collapseWs l = l := by
  intro l
  induction l with
  | nil => intro _; rfl
  | cons c tail ih =>
    cases tail with
    | nil =>
      intro hok
      cases hc : isSpaceChar c with
      | true =>
        have : c = ' ' := hok.1 c (List.mem_cons_self _ _) hc
        simp [collapseWs, hc, this]
      | false => simp [collapseWs, hc]
    | cons d rest =>
      intro hok
      have hchain := List.chain'_cons.mp hok.2
      have hoktail : okWs (d :: rest) :=
        ⟨fun x hx => hok.1 x (List.mem_cons_of_mem _ hx), hchain.2⟩
      cases hc : isSpaceChar c with
      | true =>
        have hceq : c = ' ' := hok.1 c (List.mem_cons_self _ _) hc
        have hd : isSpaceChar d = false := by
          cases hd : isSpaceChar d
          · rfl
          · exact absurd ⟨hc, hd⟩ hchain.1
        rw [show collapseWs (c :: d :: rest) = ' ' :: collapseWs (d :: rest)
          from by simp [collapseWs, hc, hd], ih hoktail, hceq]
      | false =>
        rw [show collapseWs (c :: d :: rest) = c :: collapseWs (d :: rest)
          from by simp [collapseWs, hc], ih hoktail]

theorem wsRel_symm {a b : Char} (h : wsRel a b) : wsRel b a :=
  fun hc => h ⟨hc.2, hc.1⟩

theorem chain'_wsRel_reverse {l : List Char} (h : l.Chain' wsRel) :
    l.reverse.Chain' wsRel := by
  rw [List.chain'_reverse]
  exact h.imp (fun a b hab => wsRel_symm hab)

theorem okWs_stripWs {l : List Char} (h : okWs l) : okWs (stripWs l) := by
  constructor
  · intro c hc hsp
    refine h.1 c ?_ hsp
    unfold stripWs at hc
    rw [List.mem_reverse] at hc
    have h1 := (List.dropWhile_sublist isSpaceChar).mem hc
    rw [List.mem_reverse] at h1
    exact (List.dropWhile_sublist isSpaceChar).mem h1
  · unfold stripWs
    apply chain'_wsRel_reverse
    apply List.Chain'.suffix _ (List.dropWhile_suffix isSpaceChar)
    apply chain'_wsRel_reverse
    exact List.Chain'.suffix h.2 (List.dropWhile_suffix isSpaceChar)

theorem dropWhile_idem (p : Char → Bool) :
    ∀ l : List Char, (l.dropWhile p).dropWhile p = l.dropWhile p := by
  intro l
  induction l with
  | nil => rfl
  | cons a as ih =>
    by_cases hpa : p a = true
    · simp [List.dropWhile_cons, hpa, ih]
    · simp [List.dropWhile_cons, hpa]

theorem dropWhile_head_false {p : Char → Bool} :
    ∀ (l : List Char) {c : Char} {t : List Char},
      l.dropWhile p = c :: t → p c = false := by
  intro l
  induction l with
  | nil => intro c t h; cases h
  | cons a as ih =>
    intro c t h
    rw [List.dropWhile_cons] at h
    by_cases hpa : p a = true
    · rw [if_pos hpa] at h
      exact ih h
    · rw [if_neg hpa] at h
      injection h with h1 _
      subst h1
      cases hb : p a with
      | false => rfl
      | true => exact absurd hb hpa

theorem dropWhile_eq_self_of_head {p : Char → Bool} {x : List Char} {c : Char}
    (hh : x.head? = some c) (hc : p c = false) : x.dropWhile p = x := by
  cases x with
  | nil => cases hh
  | cons a as =>
    injection hh with h1
    subst h1
    simp [List.dropWhile_cons, hc]

theorem stripWs_idem (l : List Char) : stripWs (stripWs l) = stripWs l := by
  unfold stripWs
  generalize hu : l.dropWhile isSpaceChar = u
  have hhu : ∀ c t, u = c :: t → isSpaceChar c = false := by
    intro c t h
    exact dropWhile_head_false l (hu.trans h)
  generalize hw : u.reverse.dropWhile isSpaceChar = w
  have hA : w.reverse.dropWhile isSpaceChar = w.reverse := by
    cases w with
    | nil => rfl
    | cons c0 t0 =>
      have hune : u ≠ [] := by
        intro h0
        rw [h0] at hw
        simp at hw
      obtain ⟨c, t, hct⟩ := List.exists_cons_of_ne_nil hune
      have hpc : isSpaceChar c = false := hhu c t hct
      have hsuf : (c0 :: t0) <:+ u.reverse := by
        rw [← hw]
        exact List.dropWhile_suffix isSpaceChar
      obtain ⟨pre, hpre⟩ := hsuf
      have hlast : (c0 :: t0).getLast? = some c := by
        have h1 : u.reverse.getLast? = some c := by
          rw [List.getLast?_reverse, hct]
          rfl
        rw [← hpre, List.getLast?_append] at h1
        cases h3 : (c0 :: t0).getLast? with
        | none => simp at h3
        | some x =>
          rw [h3] at h1
          simpa using h1
      have hhead : (c0 :: t0).reverse.head? = some c := by
        rw [List.head?_reverse]
        exact hlast
      exact dropWhile_eq_self_of_head hhead hpc
  rw [hA, List.reverse_reverse, ← hw, dropWhile_idem]

/-- C7 counterexample: the claim fails as stated.  The anchored
`^Einkauf\s+` rule removes only the first leading "Einkauf ", so a second
one becomes leading only after the first pass; re-cleaning removes it too,
hence clean(clean(x)) ≠ clean(x) at x = "Einkauf Einkauf foo". -/
theorem C7_idempotence_cex :
    cleanDescription "Einkauf Einkauf foo" = "Einkauf foo" ∧
    cleanDescription (cleanDescription "Einkauf Einkauf foo") = "foo" ∧
    cleanDescription (cleanDescription "Einkauf Einkauf foo") ≠
      cleanDescription "Einkauf Einkauf foo" := by decide

/-- C7 amended: the whitespace-collapsing-and-trimming stage of the
cleaner is idempotent on every string, and the full cleaning sequence is
idempotent exactly on those inputs whose cleaned form contains no further
occurrence of any removal pattern; in general a pattern removal can create
a new pattern occurrence and re-cleaning removes it too. -/
theorem C7_conditional_idempotence (s : String) (l : List Char)
    (h : patternsPass (cleanDescription s).data = (cleanDescription s).data) :
    cleanDescription (cleanDescription s) = cleanDescription s ∧
    stripWs (collapseWs (stripWs (collapseWs l))) =
      stripWs (collapseWs l) := by
  have hstage : ∀ y : List Char,
      stripWs (collapseWs (stripWs (collapseWs y))) =
        stripWs (collapseWs y) := by
    intro y
    have h1 : okWs (stripWs (collapseWs y)) :=
      okWs_stripWs (okWs_collapseWs y)
    rw [collapseWs_of_okWs _ h1, stripWs_idem]
  refine ⟨?_, hstage l⟩
  show (⟨cleanChars (cleanDescription s).data⟩ : String) = cleanDescription s
  have h2 : cleanChars (cleanDescription s).data = (cleanDescription s).data := by
    unfold cleanChars
    rw [h]
    show stripWs (collapseWs (cleanChars s.data)) = cleanChars s.data
    unfold cleanChars
    exact hstage (patternsPass s.data)
  rw [h2]

/-- Witness for C7's amended theorem: "hello  world" cleans to
"hello world", which is a fixpoint of the pattern pass, so cleaning it
again is a no-op. -/
theorem C7_conditional_idempotence_witness :
    cleanDescription (cleanDescription "hello  world") =
      cleanDescription "hello  world" :=
  (C7_conditional_idempotence "hello  world" [] (by decide)).1

/-- Witness for C9: with "Uncategorized" absent from the configured list,
it is appended at the end of the shared list. -/
theorem C9_constructor_mutation_witness :
    (MainCategorizer.construct
        ⟨["Food"], [("Food", ["mig"])], [("Food", "a hint")]⟩).categories =
      ["Food"] ++ ["Uncategorized"] :=
  (C9_constructor_mutation
      ⟨["Food"], [("Food", ["mig"])], [("Food", "a hint")]⟩).2.2.2.1
    (by decide)

/-! ### Dynamic (untyped) model of the keyword tier for C8

`_load_keyword_rules` returns whatever JSON value the rules file holds
(`json.load` untyped); `categorize` then iterates each rule value and
calls `.lower()` on each element with no shape check and no surrounding
`try`.  The JSON values and the dynamic-typing failures they can raise
are modelled explicitly. -/

/-- A parsed JSON value as produced by `json.load` for a rule entry. -/
inductive PyVal where
  | str (s : String)
  | num (n : Int)
  | boolean (b : Bool)
  | null
  | arr (elems : List PyVal)
  | obj (fields : List (String × PyVal))

/-- Python's `for keyword in keywords`: a string iterates its characters
(as 1-character strings), a list its elements, a dict its keys; numbers,
booleans and None raise TypeError. -/
def pyIterate : PyVal → Except String (List PyVal)
  | .str s => .ok (s.data.map (fun ch => PyVal.str ⟨[ch]⟩))
  | .arr l => .ok l
  | .obj fields => .ok (fields.map (fun p => PyVal.str p.1))
  | _ => .error "TypeError: object is not iterable"

/-- Python's lazily evaluated
`any(keyword.lower() in desc_lower for keyword in keywords)`:
short-circuits on the first hit, raises AttributeError on the first
non-string keyword it reaches. -/
def pyAny (dl : String) : List PyVal → Except String Bool
  | [] => .ok false
  | v :: rest =>
    match v with
    | .str k => if strContains dl (strLower k) then .ok true else pyAny dl rest
    | _ => .error "AttributeError: object has no attribute lower"

/-- The inner rules loop of keyword.py lines 126-130 over untyped rule
values, with its `break`, propagating dynamic-typing exceptions. -/
def firstMatchDyn (dl : String) : List (String × PyVal) →
    Except String (Option String)
  | [] => .ok none
  | (cat, kwv) :: rest =>
    match pyIterate kwv with
    | .error e => .error e
    | .ok kws =>
      match pyAny dl kws with
      | .error e => .error e
      | .ok true => .ok (some cat)
      | .ok false => firstMatchDyn dl rest

/-- `KeywordCategorizer.categorize` over untyped rule values: an exception
while processing any description aborts the whole call. -/
def keywordCategorizeDyn (rules : List (String × PyVal)) :
    List String → Except String (List (String × String))
  | [] => .ok []
  | d :: rest =>
    match firstMatchDyn (strLower d) rules with
    | .error e => .error e
    | .ok r =>
      match keywordCategorizeDyn rules rest with
      | .error e => .error e
      | .ok m => .ok ((d, r.getD "Uncategorized") :: m)

/-- `MainCategorizer.categorize` over the dynamic keyword tier: the `try`
of main.py lines 46-54 wraps only the model-tier call, so a keyword-tier
exception propagates to the caller. -/
def mainCategorizeDyn (rules : List (String × PyVal))
    (model : List String → Option (List (String × String)))
    (descs : List String) : Except String (List (String × String)) :=
  match keywordCategorizeDyn rules descs with
  | .error e => .error e
  | .ok keyword_results =>
    let uncategorized :=
      (keyword_results.filter (fun p => p.2 == "Uncategorized")).map
        (fun p => p.1)
    if uncategorized.isEmpty then .ok keyword_results
    else
      match model uncategorized with
      | none => .ok keyword_results
      | some openai_results => .ok (dictUpdate keyword_results openai_results)

/-- Rule values on which the dynamic loop cannot raise: a string, a list
of strings, or an object (whose keys are strings). -/
def pyWellShaped : PyVal → Bool
  | .str _ => true
  | .arr l => l.all (fun v => match v with | .str _ => true | _ => false)
  | .obj _ => true
  | _ => false

theorem pyAny_ok (dl : String) :
    ∀ l : List PyVal, (∀ v ∈ l, ∃ s, v = PyVal.str s) →
      ∃ b, pyAny dl l = .ok b := by
  intro l
  induction l with
  | nil => intro _; exact ⟨false, rfl⟩
  | cons v rest ih =>
    intro h
    obtain ⟨s, rfl⟩ := h v (List.mem_cons_self _ _)
    show ∃ b, (if strContains dl (strLower s) then Except.ok true
      else pyAny dl rest) = .ok b
    by_cases hc : strContains dl (strLower s) = true
    · exact ⟨true, by rw [if_pos hc]⟩
    · obtain ⟨b, hb⟩ := ih (fun w hw => h w (List.mem_cons_of_mem _ hw))
      exact ⟨b, by rw [if_neg hc]; exact hb⟩

theorem pyIterate_ok {v : PyVal} (h : pyWellShaped v = true) :
    ∃ kws, pyIterate v = .ok kws ∧ ∀ k ∈ kws, ∃ s, k = PyVal.str s := by
  cases v with
  | str s =>
    refine ⟨_, rfl, ?_⟩
    intro k hk
    obtain ⟨ch, _, hch⟩ := List.mem_map.mp hk
    exact ⟨⟨[ch]⟩, hch.symm⟩
  | arr l =>
    refine ⟨l, rfl, ?_⟩
    intro k hk
    have := List.all_eq_true.mp h k hk
    cases k with
    | str s => exact ⟨s, rfl⟩
    | num n => cases this
    | boolean b => cases this
    | null => cases this
    | arr l2 => cases this
    | obj f => cases this
  | obj fields =>
    refine ⟨_, rfl, ?_⟩
    intro k hk
    obtain ⟨p, _, hp⟩ := List.mem_map.mp hk
    exact ⟨p.1, hp.symm⟩
  | num n => cases h
  | boolean b => cases h
  | null => cases h

theorem firstMatchDyn_ok (dl : String) :
    ∀ rules : List (String × PyVal),
      (∀ p ∈ rules, pyWellShaped p.2 = true) →
      ∃ r, firstMatchDyn dl rules = .ok r := by
  intro rules
  induction rules with
  | nil => intro _; exact ⟨none, rfl⟩
  | cons p rest ih =>
    intro h
    obtain ⟨cat, kwv⟩ := p
    obtain ⟨kws, hkws, hstr⟩ := pyIterate_ok (h (cat, kwv) (List.mem_cons_self _ _))
    obtain ⟨b, hb⟩ := pyAny_ok dl kws hstr
    cases b with
    | true => exact ⟨some cat, by simp [firstMatchDyn, hkws, hb]⟩
    | false =>
      obtain ⟨r, hr⟩ := ih (fun q hq => h q (List.mem_cons_of_mem _ hq))
      exact ⟨r, by simp [firstMatchDyn, hkws, hb, hr]⟩

theorem keywordCategorizeDyn_ok {rules : List (String × PyVal)}
    (h : ∀ p ∈ rules, pyWellShaped p.2 = true) :
    ∀ descs : List String, ∃ m,
      keywordCategorizeDyn rules descs = .ok m ∧ m.map Prod.fst = descs := by
  intro descs
  induction descs with
  | nil => exact ⟨[], rfl, rfl⟩
  | cons d rest ih =>
    obtain ⟨r, hr⟩ := firstMatchDyn_ok (strLower d) rules h
    obtain ⟨m, hm, hkeys⟩ := ih
    refine ⟨(d, r.getD "Uncategorized") :: m, ?_, ?_⟩
    · simp [keywordCategorizeDyn, hr, hm]
    · rw [List.map_cons, hkeys]

theorem keywordCategorizeDyn_nil :
    ∀ descs : List String,
      keywordCategorizeDyn [] descs =
        .ok (descs.map (fun d => (d, "Uncategorized"))) := by
  intro descs
  induction descs with
  | nil => rfl
  | cons d rest ih =>
    simp [keywordCategorizeDyn, firstMatchDyn, ih]

theorem keys_mono_dictUpdate {m o : List (String × String)} {k : String}
    (h : k ∈ m.map Prod.fst) : k ∈ (dictUpdate m o).map Prod.fst := by
  induction o generalizing m with
  | nil => exact h
  | cons p rest ih => exact ih (keys_subset_dictInsert h)

/-- C8 counterexample: the claim fails as stated.  A keyword-rules file
that parses as JSON but maps a category to a number (here Food ↦ 5) makes
`categorize` raise TypeError when the rules loop iterates the value —
keyword.py's try wraps only the file load, and main.py's try wraps only
the model-tier call, so the exception escapes to the caller. -/
theorem C8_raises_cex :
    mainCategorizeDyn [("Food", PyVal.num 5)] (fun _ => none) ["x"] =
      Except.error "TypeError: object is not iterable" := by rfl

/-- C8 amended: `categorize` does not raise when the rules value is absent
(load failure degrades to empty rules, mapping every description to
"Uncategorized") or when every rule value is well-shaped (a string, a
list of strings, or an object); in those cases the caller receives a
best-effort mapping containing every input description.  A JSON-parseable
rules file of the wrong shape, however, does make `categorize` raise. -/
theorem C8_no_raise_amended (rules : List (String × PyVal))
    (model : List String → Option (List (String × String)))
    (descs : List String)
    (h : ∀ p ∈ rules, pyWellShaped p.2 = true) :
    (∃ m, mainCategorizeDyn rules model descs = .ok m ∧
      ∀ d ∈ descs, d ∈ m.map Prod.fst) ∧
    keywordCategorizeDyn [] descs =
      .ok (descs.map (fun d => (d, "Uncategorized"))) := by
  refine ⟨?_, keywordCategorizeDyn_nil descs⟩
  obtain ⟨m, hm, hkeys⟩ := keywordCategorizeDyn_ok h descs
  unfold mainCategorizeDyn
  rw [hm]
  dsimp only
  by_cases hu :
      ((m.filter (fun p => p.2 == "Uncategorized")).map (fun p => p.1)).isEmpty
        = true
  · rw [if_pos hu]
    exact ⟨m, rfl, fun d hd => hkeys ▸ hd⟩
  · rw [if_neg hu]
    cases hmodel :
        model ((m.filter (fun p => p.2 == "Uncategorized")).map (fun p => p.1))
        with
    | none =>
      exact ⟨m, rfl, fun d hd => hkeys ▸ hd⟩
    | some o =>
      exact ⟨dictUpdate m o, rfl,
        fun d hd => keys_mono_dictUpdate (hkeys ▸ hd)⟩

/-- Witness for C8's amended theorem: a well-shaped rules mapping and the
empty (load-failure) rules both succeed, covering both input
descriptions. -/
theorem C8_no_raise_amended_witness :
    (∃ m, mainCategorizeDyn [("Food", PyVal.arr [PyVal.str "mig"])]
        (fun _ => none) ["MIGROS", "zzz"] = .ok m ∧
      ∀ d ∈ ["MIGROS", "zzz"], d ∈ m.map Prod.fst) ∧
    keywordCategorizeDyn [] ["MIGROS", "zzz"] =
      .ok [("MIGROS", "Uncategorized"), ("zzz", "Uncategorized")] :=
  C8_no_raise_amended [("Food", PyVal.arr [PyVal.str "mig"])] (fun _ => none)
    ["MIGROS", "zzz"] (by decide)

end Cashew
